import Mathlib

/-!
Verification of the subtitle/translation core of the YouTube2Slides backend.

The Python sources are shallowly embedded as executable Lean definitions:

* `backend/services/subtitle_optimizer.py` — sentence-boundary detection,
  punctuation-driven merging (`_merge_segments`), heuristic merging
  (`_smart_merge`), punctuation-density detection (`_detect_punctuation`),
  and `get_optimization_stats`.
* `backend/services/subtitle.py` — `get_keyframe_timestamps` and
  `get_subtitle_at_time`.
* `backend/services/ai_translator.py` — dynamic batch sizing
  (`_calculate_batch_by_char_count`) and the batched translation driver
  (`translate_batch`), with the network backend abstracted as a function
  returning `Except`.
* `backend/app.py` — the progress-event trace of `process_video_task`.

Python `float` timestamps and percentages are modelled as `ℚ` (every claim
below is about ordering/branching at comfortable distances from any float
rounding boundary), Python `str` as Lean `String`.
-/

/-! ## Python string primitives -/

/-- The characters Python `str.strip()` removes (ASCII whitespace). -/
def pySpace (c : Char) : Bool :=
  c = ' ' || c = '\t' || c = '\n' || c = '\x0d' || c = '\x0b' || c = '\x0c'

/-- Python `str.strip()` on a character list. -/
def stripChars (l : List Char) : List Char :=
  ((l.dropWhile pySpace).reverse.dropWhile pySpace).reverse

/-- Python `text.strip()`. -/
def pyStrip (s : String) : String :=
  String.mk (stripChars s.data)

/-- Python `text.endswith(sep)` specialised to a single-space suffix. -/
def endsWithSpace (s : String) : Bool :=
  s.data.getLast? = some ' '

/-! ## SubtitleOptimizer: punctuation machinery

`self.sentence_pattern = re.compile(r"[\.\!\?。！？]|(?:\.\.\.)|…")` (as set by
`_setup_unicode_punct`, which runs in `__init__` and overrides the earlier
assignments).  Since `.` is in the leading character class, the `...`
alternative can never win, so `re.search` on this pattern finds the leftmost
occurrence of one of the seven single characters below, with a match of
width one. -/

/-- The characters at which `sentence_pattern` can match. -/
def sentencePatternChars : List Char :=
  ['.', '!', '?', '。', '！', '？', '…']

/-- Index of the leftmost `sentence_pattern` match (`re.search`). -/
def findPunctIdx (l : List Char) : Option Nat :=
  l.findIdx? (fun c => c ∈ sentencePatternChars)

/-- `sentence_endings` as set by `_setup_unicode_punct`. -/
def sentence_endings : List Char := ['.', '!', '?', '。', '！', '？']

/-- `pause_marks` as set by `_setup_unicode_punct`. -/
def pause_marks : List Char := [',', ';', ':', '、', '，', '；', '：']

/-- `SubtitleOptimizer.contains_complete_sentence`. -/
def contains_complete_sentence (text : String) : Bool :=
  let t := pyStrip text
  if t = "" then false
  else (findPunctIdx t.data).isSome

/-- `SubtitleOptimizer.split_at_first_sentence`. -/
def split_at_first_sentence (text : String) : String × String :=
  match findPunctIdx text.data with
  | none => (text, "")
  | some i =>
      (pyStrip (String.mk (text.data.take (i + 1))),
       pyStrip (String.mk (text.data.drop (i + 1))))

/-! ## SubtitleOptimizer: segments and the punctuation-driven merge -/

/-- A subtitle segment as handled by `subtitle_optimizer.py`: the SRT
timestamps are carried as raw strings (the dict produced by `_parse_srt`;
the `index` key is never read by the merge code and is omitted). -/
structure OptSeg where
  start_time : String
  end_time : String
  text : String
deriving DecidableEq

/-- The in-place text merge used by both merge algorithms:
`if current['text'] and not current['text'].endswith(' '): current['text'] += ' '`
followed by `current['text'] += next['text']`. -/
def joinText (a b : String) : String :=
  (if a ≠ "" ∧ ¬ endsWithSpace a then a ++ " " else a) ++ b

/-- Inner loop of `_merge_segments`:
`while i < len(segments) - 1 and not self.contains_complete_sentence(...)`,
absorbing the next fragment (joined text, extended end time).  Returns the
final buffer and the unconsumed fragments. -/
def absorbUntilSentence : OptSeg → List OptSeg → OptSeg × List OptSeg
  | cur, [] => (cur, [])
  | cur, nxt :: rest =>
      if contains_complete_sentence cur.text then (cur, nxt :: rest)
      else absorbUntilSentence ⟨cur.start_time, nxt.end_time, joinText cur.text nxt.text⟩ rest

/-- Tail of `_merge_segments`: leftover overflow is emitted as a
zero-duration segment anchored at the last emitted end time. -/
def mergeFinalize (acc : List OptSeg) (overflow : String) : List OptSeg :=
  if overflow ≠ "" then
    match acc.getLast? with
    | none => acc
    | some l => acc ++ [⟨l.end_time, l.end_time, overflow⟩]
  else acc

/-- One outer iteration of `_merge_segments` starting at fragment `s`:
seed the buffer from the overflow (appending `s` when — per the source's
text-equality test — the buffer text differs from `s.text`), absorb until a
sentence appears, split at the first boundary, emit the prefix. -/
def mergeStep (overflow : String) (s : OptSeg) (rest : List OptSeg) :
    OptSeg × String × List OptSeg :=
  let cur0 : OptSeg := ⟨s.start_time, s.end_time, if overflow ≠ "" then overflow else s.text⟩
  let cur1 : OptSeg :=
    if cur0.text ≠ s.text then ⟨cur0.start_time, s.end_time, joinText cur0.text s.text⟩
    else cur0
  let p := absorbUntilSentence cur1 rest
  (p.1, (split_at_first_sentence p.1.text).2, p.2)

/-- The `while i < len(segments)` loop of `_merge_segments`.  The loop
consumes at least one fragment per iteration, so `fuel := length of the
fragment list` makes the fuel-exhaustion branch unreachable; fuel only makes
the recursion structural. -/
def mergeLoop (fuel : Nat) (acc : List OptSeg) (overflow : String) :
    List OptSeg → List OptSeg
  | [] => mergeFinalize acc overflow
  | s :: rest =>
      match fuel with
      | 0 => mergeFinalize acc overflow
      | fuel' + 1 =>
          let st := mergeStep overflow s rest
          let first := (split_at_first_sentence st.1.text).1
          let acc1 := if first ≠ "" then acc ++ [⟨st.1.start_time, st.1.end_time, first⟩] else acc
          mergeLoop fuel' acc1 st.2.1 st.2.2

/-- `SubtitleOptimizer._merge_segments` (its `language` parameter is
accepted but never read by the body). -/
def merge_segments (segments : List OptSeg) (language : Option String := none) :
    List OptSeg :=
  if segments = [] then [] else
    let _ := language
    mergeLoop segments.length [] "" segments

/-- Sanity check: a plain punctuated run is split into its two sentences. -/
example :
    merge_segments
      [⟨"00:00:00,000", "00:00:01,000", "Hello"⟩,
       ⟨"00:00:01,000", "00:00:02,000", "world."⟩,
       ⟨"00:00:02,000", "00:00:03,000", "Bye."⟩] none
    = [⟨"00:00:00,000", "00:00:02,000", "Hello world."⟩,
       ⟨"00:00:02,000", "00:00:03,000", "Bye."⟩] := by decide

/-- C1: the spec (and the source's own comments: `# We used overflow, so add
current segment`) promise that every input fragment contributes to exactly
one emitted sentence and that the output texts reconstruct the input texts.
The source tests whether the buffer was seeded from overflow by comparing
TEXTS (`current_segment['text'] != segments[i]['text']`), so when the carried
overflow happens to equal the current fragment's text, that fragment is never
appended: on the input below the second fragment's text is lost (output
concatenation `a. a`, input concatenation `a. a a`). -/
theorem merge_segments_overflow_collision_drops_text :
    merge_segments
      [⟨"00:00:00,000", "00:00:01,000", "a. a"⟩,
       ⟨"00:00:01,000", "00:00:02,000", "a"⟩] none
      = [⟨"00:00:00,000", "00:00:01,000", "a."⟩,
         ⟨"00:00:01,000", "00:00:02,000", "a"⟩]
    ∧ String.intercalate " "
        ((merge_segments
          [⟨"00:00:00,000", "00:00:01,000", "a. a"⟩,
           ⟨"00:00:01,000", "00:00:02,000", "a"⟩] none).map OptSeg.text)
        = "a. a"
    ∧ String.intercalate " "
        ([(⟨"00:00:00,000", "00:00:01,000", "a. a"⟩ : OptSeg),
          ⟨"00:00:01,000", "00:00:02,000", "a"⟩].map OptSeg.text)
        = "a. a a" := by
  refine ⟨by decide, by decide, by decide⟩

/-! ## SubtitleOptimizer: punctuation-density detection -/

/-- `SubtitleOptimizer._detect_punctuation`.  Python computes
`punct_count / min(20, len(segments)) > 0.3` in `float`; with at most 20
sampled fragments the quotient is at least `1/200` away from `3/10` whenever
it differs from it, far above any double-rounding error, so the exact `ℚ`
comparison below decides identically. -/
def detect_punctuation (segments : List OptSeg) : Bool :=
  if segments = [] then false
  else
    let sample := segments.take (min 20 segments.length)
    let punct_count := (sample.filter (fun seg =>
      (sentence_endings ++ pause_marks).any (fun p => seg.text.data.contains p))).length
    decide ((punct_count : ℚ) / ((min 20 segments.length : ℕ) : ℚ) > 3 / 10)

/-! ## SubtitleOptimizer: timestamp parsing and the heuristic merge -/

/-- Python `int(s)` restricted to plain decimal-digit strings (the only form
appearing in SRT timestamps; `int()`'s additional tolerance of signs and
surrounding whitespace is irrelevant to every claim below).  A non-digit
anywhere fails, and failure propagates to `_parse_timestamp`'s `except`
branch. -/
def parseDigits (l : List Char) : Option Nat :=
  if l ≠ [] ∧ l.all (fun c => c.isDigit) then
    some (l.foldl (fun acc c => 10 * acc + (c.toNat - 48)) 0)
  else none

/-- Python `str.split(sep)` for a one-character separator. -/
def splitOnChar (sep : Char) : List Char → List (List Char)
  | [] => [[]]
  | c :: rest =>
      let r := splitOnChar sep rest
      if c = sep then [] :: r
      else
        match r with
        | [] => [[c]]
        | h :: t => (c :: h) :: t

/-- `SubtitleOptimizer._parse_timestamp`: `HH:MM:SS,mmm` to seconds, `0.0` on
any parse failure. -/
def parse_timestamp (timestamp : String) : ℚ :=
  match splitOnChar ',' timestamp.data with
  | [time_part, ms_part] =>
      match splitOnChar ':' time_part with
      | [hs, ms, ss] =>
          match parseDigits hs, parseDigits ms, parseDigits ss, parseDigits ms_part with
          | some h, some m, some s, some msv =>
              (h : ℚ) * 3600 + (m : ℚ) * 60 + (s : ℚ) + (msv : ℚ) / 1000
          | _, _, _, _ => 0
      | _ => 0
  | _ => 0

/-- `SubtitleOptimizer._calculate_time_gap`. -/
def calculate_time_gap (seg1_end seg2_start : String) : ℚ :=
  parse_timestamp seg2_start - parse_timestamp seg1_end

/-- `SubtitleOptimizer.merge_config`. -/
structure MergeConfig where
  min_chars : Nat
  target_chars : Nat
  max_chars : Nat
  max_time_gap : ℚ
  min_segments : Nat

/-- The configured tunables of the heuristic merge. -/
def merge_config : MergeConfig :=
  { min_chars := 40, target_chars := 80, max_chars := 150,
    max_time_gap := 3 / 2, min_segments := 2 }

/-- `language_markers`: per-language sentence-final markers. -/
def language_markers : List (String × List String × List String) :=
  [("ja", (["です", "ます", "でした", "ました", "だった", "である", "でしょう", "ません", "ない"],
           ["か", "ね", "よ", "な", "わ", "ぞ", "ぜ", "さ", "の"])),
   ("ko", (["니다", "습니다", "었습니다", "였습니다", "는데요", "어요", "아요"],
           ["요", "네요", "까요", "세요", "죠", "군요"])),
   ("zh", (["了", "過", "著"],
           ["吧", "呢", "啊", "嗎", "嘛", "的", "喔", "哦", "耶"])),
   ("th", (["แล้ว", "อยู่", "ไป", "มา"],
           ["ครับ", "ค่ะ", "นะ", "จ้ะ", "จ๊ะ", "ล่ะ"]))]

/-- Python `text.endswith(marker)`. -/
def pyEndsWith (s suffix : String) : Bool :=
  suffix.data.isSuffixOf s.data

/-- Python truthiness of an optional string (`None` and `""` are falsy). -/
def langTruthy : Option String → Bool
  | none => false
  | some l => l ≠ ""

/-- `SubtitleOptimizer.detect_language_ending`.  `language.split('-')[0]`
is lowercased; language codes are ASCII so per-character `Char.toLower`
matches Python `str.lower()` here. -/
def detect_language_ending (text : String) (language : Option String) : Bool :=
  if text = "" ∨ ¬ langTruthy language then false
  else
    match language with
    | none => false
    | some lang =>
        let lang_base := String.mk (((splitOnChar '-' lang.data).headD []).map Char.toLower)
        match language_markers.lookup lang_base with
        | none => false
        | some (endings, particles) =>
            let text_stripped := pyStrip text
            endings.any (fun e => pyEndsWith text_stripped e)
              || particles.any (fun p => pyEndsWith text_stripped p)

/-- The merge decision of `_smart_merge`'s inner loop for the buffer
`cur` against the next fragment (the chained `if`/`elif` block followed by
the unconditional `if current_len >= max_chars: should_merge = False`). -/
def smartShouldMerge (language : Option String) (cur nxt : OptSeg) : Bool :=
  let current_len := cur.text.length
  let time_gap := calculate_time_gap cur.end_time nxt.start_time
  let should_merge : Bool :=
    if current_len < merge_config.min_chars then true
    else if time_gap < merge_config.max_time_gap ∧ current_len < merge_config.target_chars then
      true
    else if langTruthy language then
      if ¬ detect_language_ending cur.text language then
        if current_len < merge_config.max_chars then true else false
      else false
    else false
  if current_len ≥ merge_config.max_chars then false else should_merge

/-- Inner loop of `_smart_merge` (`while i < len(segments) - 1`): keep
absorbing the next fragment while the decision criteria say to merge. -/
def smartAbsorb (language : Option String) : OptSeg → List OptSeg → OptSeg × List OptSeg
  | cur, [] => (cur, [])
  | cur, nxt :: rest =>
      if smartShouldMerge language cur nxt then
        smartAbsorb language ⟨cur.start_time, nxt.end_time, joinText cur.text nxt.text⟩ rest
      else (cur, nxt :: rest)

/-- The `while i < len(segments)` loop of `_smart_merge`; as for
`mergeLoop`, each iteration consumes at least one fragment, so fuel equal to
the fragment count makes the fuel-exhaustion branch unreachable. -/
def smartLoop (language : Option String) (fuel : Nat) (acc : List OptSeg) :
    List OptSeg → List OptSeg
  | [] => acc
  | s :: rest =>
      match fuel with
      | 0 => acc
      | fuel' + 1 =>
          let p := smartAbsorb language ⟨s.start_time, s.end_time, s.text⟩ rest
          smartLoop language fuel' (acc ++ [p.1]) p.2

/-- `SubtitleOptimizer._smart_merge`. -/
def smart_merge (segments : List OptSeg) (language : Option String := none) :
    List OptSeg :=
  if segments = [] then [] else smartLoop language segments.length [] segments

/-- The merge-strategy selection inside `optimize_srt_file` (its pure core,
between `_parse_srt` and `_write_srt`). -/
def optimizeCore (segments : List OptSeg) (language : Option String) : List OptSeg :=
  if detect_punctuation segments then merge_segments segments language
  else smart_merge segments language

/-- Sanity: two long, punctuation-free, far-apart fragments stay separate
under the heuristic merge but are merged by the punctuation-driven merge. -/
example :
    (smart_merge
      [⟨"00:00:00,000", "00:00:01,000", String.mk (List.replicate 40 'a')⟩,
       ⟨"00:00:10,000", "00:00:11,000", String.mk (List.replicate 40 'b')⟩] none).length = 2
    ∧ (merge_segments
      [⟨"00:00:00,000", "00:00:01,000", String.mk (List.replicate 40 'a')⟩,
       ⟨"00:00:10,000", "00:00:11,000", String.mk (List.replicate 40 'b')⟩] none).length = 1 := by
  with_unfolding_all decide

/-! ## C4: bounds on the heuristic merge -/

set_option maxRecDepth 8000 in
/-- C4 counterexample: `_smart_merge` checks `max_chars` only before
absorbing, never on the emitted text, and a lone oversize fragment passes
through untouched: a single 151-character fragment yields a segment of
length 151 > `max_chars = 150`. -/
theorem smart_merge_singleton_exceeds_max_chars :
    (smart_merge [⟨"00:00:00,000", "00:00:01,000", String.mk (List.replicate 151 'a')⟩]
        none).map (fun s => s.text.length) = [151]
    ∧ ¬ (151 ≤ merge_config.max_chars) := by
  with_unfolding_all decide

/-- Largest fragment-text length of the input. -/
def maxTextLen (segments : List OptSeg) : Nat :=
  (segments.map (fun s => s.text.length)).foldr max 0

theorem le_maxTextLen {segments : List OptSeg} {s : OptSeg} (hs : s ∈ segments) :
    s.text.length ≤ maxTextLen segments := by
  induction segments with
  | nil => cases hs
  | cons a rest ih =>
      rcases List.mem_cons.mp hs with rfl | hmem
      · exact le_max_left _ _
      · exact le_trans (ih hmem) (le_max_right _ _)

/-- A positive merge decision implies the buffer is still below
`max_chars` (the final `if current_len >= max_chars` veto). -/
theorem smartShouldMerge_length_lt {language : Option String} {cur nxt : OptSeg}
    (h : smartShouldMerge language cur nxt = true) :
    cur.text.length < merge_config.max_chars := by
  by_contra hge
  push_neg at hge
  unfold smartShouldMerge at h
  rw [if_pos hge] at h
  exact Bool.false_ne_true h

theorem joinText_length_le (a b : String) :
    (joinText a b).length ≤ a.length + 1 + b.length := by
  unfold joinText
  have hs : (" " : String).length = 1 := rfl
  split
  · simp only [String.length_append, hs]
    omega
  · simp only [String.length_append]
    omega

theorem smartAbsorb_snd_sub {language : Option String} :
    ∀ (l : List OptSeg) (cur : OptSeg), ∀ x ∈ (smartAbsorb language cur l).2, x ∈ l := by
  intro l
  induction l with
  | nil => intro cur x hx; simp [smartAbsorb] at hx
  | cons nxt rest ih =>
      intro cur x hx
      unfold smartAbsorb at hx
      split at hx
      · exact List.mem_cons_of_mem _ (ih _ x hx)
      · exact hx

theorem smartAbsorb_snd_length {language : Option String} :
    ∀ (l : List OptSeg) (cur : OptSeg), (smartAbsorb language cur l).2.length ≤ l.length := by
  intro l
  induction l with
  | nil => intro cur; simp [smartAbsorb]
  | cons nxt rest ih =>
      intro cur
      unfold smartAbsorb
      split
      · exact le_trans (ih _) (by simp)
      · simp

theorem smartAbsorb_fst_length {language : Option String} {L : Nat} :
    ∀ (l : List OptSeg) (cur : OptSeg), (∀ s ∈ l, s.text.length ≤ L) →
      (smartAbsorb language cur l).1.text.length
        ≤ max cur.text.length (merge_config.max_chars + L) := by
  intro l
  induction l with
  | nil => intro cur _; simp [smartAbsorb]
  | cons nxt rest ih =>
      intro cur hl
      unfold smartAbsorb
      split
      · rename_i hmerge
        refine le_trans (ih _ (fun s hs => hl s (List.mem_cons_of_mem _ hs))) ?_
        have h1 : cur.text.length < merge_config.max_chars := smartShouldMerge_length_lt hmerge
        have h2 : nxt.text.length ≤ L := hl nxt (List.mem_cons_self _ _)
        have h3 : (joinText cur.text nxt.text).length ≤ merge_config.max_chars + L := by
          have := joinText_length_le cur.text nxt.text
          omega
        calc max (joinText cur.text nxt.text).length (merge_config.max_chars + L)
            ≤ merge_config.max_chars + L := max_le h3 le_rfl
          _ ≤ max cur.text.length (merge_config.max_chars + L) := le_max_right _ _
      · exact le_max_left _ _

theorem smartLoop_text_le {language : Option String} {L : Nat} :
    ∀ (fuel : Nat) (acc l : List OptSeg),
      (∀ s ∈ l, s.text.length ≤ L) →
      (∀ s ∈ acc, s.text.length ≤ merge_config.max_chars + L) →
      ∀ s ∈ smartLoop language fuel acc l, s.text.length ≤ merge_config.max_chars + L := by
  intro fuel
  induction fuel with
  | zero =>
      intro acc l hl hacc s hs
      cases l with
      | nil => exact hacc s hs
      | cons a rest => exact hacc s hs
  | succ fuel' ih =>
      intro acc l hl hacc s hs
      cases l with
      | nil => exact hacc s hs
      | cons a rest =>
          refine ih _ _ (fun x hx => hl x (List.mem_cons_of_mem _ (smartAbsorb_snd_sub _ _ x hx)))
            (fun x hx => ?_) s hs
          rcases List.mem_append.mp hx with hx' | hx'
          · exact hacc x hx'
          · have hx1 : x = (smartAbsorb language ⟨a.start_time, a.end_time, a.text⟩ rest).1 := by
              simpa using hx'
            subst hx1
            have ha : a.text.length ≤ L := hl a (List.mem_cons_self _ _)
            have := @smartAbsorb_fst_length language L rest
              ⟨a.start_time, a.end_time, a.text⟩ (fun x hx => hl x (List.mem_cons_of_mem _ hx))
            simp only at this
            have hmax : max a.text.length (merge_config.max_chars + L)
                = merge_config.max_chars + L := max_eq_right (by omega)
            omega

theorem smartLoop_length_ge {language : Option String} :
    ∀ (fuel : Nat) (acc l : List OptSeg),
      acc.length ≤ (smartLoop language fuel acc l).length := by
  intro fuel
  induction fuel with
  | zero =>
      intro acc l
      cases l <;> simp [smartLoop]
  | succ fuel' ih =>
      intro acc l
      cases l with
      | nil => simp [smartLoop]
      | cons a rest =>
          refine le_trans ?_ (ih (acc ++ [_]) _)
          simp

/-- C4 (amended): for a non-empty fragment list the heuristic merge yields
a non-empty segment list, and every emitted text has length at most
`max_chars` plus the largest input fragment length (absorption stops once
`max_chars` is reached, so the cap is overshot by at most one fragment plus
a joining space; a lone oversize fragment passes through unchanged). -/
theorem smart_merge_nonempty_and_bounded (segments : List OptSeg) (language : Option String)
    (h : segments ≠ []) :
    smart_merge segments language ≠ []
    ∧ ∀ s ∈ smart_merge segments language,
        s.text.length ≤ merge_config.max_chars + maxTextLen segments := by
  obtain ⟨s0, rest, rfl⟩ := List.exists_cons_of_ne_nil h
  constructor
  · have h1 : smart_merge (s0 :: rest) language
        = smartLoop language rest.length ([] ++ [(smartAbsorb language
            ⟨s0.start_time, s0.end_time, s0.text⟩ rest).1])
            (smartAbsorb language ⟨s0.start_time, s0.end_time, s0.text⟩ rest).2 := by
      simp [smart_merge, smartLoop]
    have h2 := @smartLoop_length_ge language rest.length
      ([] ++ [(smartAbsorb language ⟨s0.start_time, s0.end_time, s0.text⟩ rest).1])
      (smartAbsorb language ⟨s0.start_time, s0.end_time, s0.text⟩ rest).2
    intro hnil
    rw [h1] at hnil
    rw [hnil] at h2
    simp at h2
  · intro s hs
    have hmerge : smart_merge (s0 :: rest) language
        = smartLoop language (s0 :: rest).length [] (s0 :: rest) := by
      simp [smart_merge]
    rw [hmerge] at hs
    exact smartLoop_text_le (s0 :: rest).length [] (s0 :: rest)
      (fun x hx => le_maxTextLen hx) (by simp) s hs

/-- C4 witness: the amended bound evaluated on a concrete one-fragment
input. -/
theorem smart_merge_nonempty_and_bounded_witness :
    ([(⟨"00:00:00,000", "00:00:01,000", "hi"⟩ : OptSeg)] ≠ [])
    ∧ (smart_merge [⟨"00:00:00,000", "00:00:01,000", "hi"⟩] none ≠ []
       ∧ ∀ s ∈ smart_merge [⟨"00:00:00,000", "00:00:01,000", "hi"⟩] none,
           s.text.length ≤ merge_config.max_chars
             + maxTextLen [⟨"00:00:00,000", "00:00:01,000", "hi"⟩]) :=
  ⟨by decide, smart_merge_nonempty_and_bounded
    [⟨"00:00:00,000", "00:00:01,000", "hi"⟩] none (by decide)⟩

/-! ## C7: the punctuation-density detector -/

/-- C7: `_detect_punctuation` samples the first `min(20, n)` fragments, and
`optimize_srt_file` takes the punctuation-driven merge exactly when the
sampled fraction containing terminal or pause punctuation is strictly
greater than `3/10` (so a density of exactly 30% — and the empty list, for
which the detector returns `False` — selects the heuristic merge). -/
theorem detect_punctuation_spec (segments : List OptSeg) (language : Option String) :
    (detect_punctuation segments = true ↔
      (segments ≠ [] ∧
        (((segments.take 20).filter (fun seg =>
            (sentence_endings ++ pause_marks).any (fun p => seg.text.data.contains p))).length : ℚ)
          / ((min 20 segments.length : ℕ) : ℚ) > 3 / 10))
    ∧ (detect_punctuation segments = true →
        optimizeCore segments language = merge_segments segments language)
    ∧ (detect_punctuation segments = false →
        optimizeCore segments language = smart_merge segments language) := by
  have htake : segments.take (min 20 segments.length) = segments.take 20 := by
    rcases le_total 20 segments.length with h | h
    · rw [min_eq_left h]
    · rw [min_eq_right h, List.take_length, List.take_of_length_le h]
  refine ⟨⟨?_, ?_⟩, ?_, ?_⟩
  · intro hd
    unfold detect_punctuation at hd
    split at hd
    · exact absurd hd (by simp)
    · rename_i hne
      rw [htake] at hd
      exact ⟨hne, of_decide_eq_true hd⟩
  · rintro ⟨hne, hgt⟩
    unfold detect_punctuation
    rw [if_neg hne, htake]
    exact decide_eq_true hgt
  · intro hd
    unfold optimizeCore
    rw [hd]
    simp
  · intro hd
    unfold optimizeCore
    rw [hd]
    simp

/-- C7 witness: one fragment with punctuation (density 100%) takes the
punctuation-driven path; one without (density 0%) takes the heuristic
path. -/
theorem detect_punctuation_spec_witness :
    optimizeCore [⟨"00:00:00,000", "00:00:01,000", "Hi."⟩] none
      = merge_segments [⟨"00:00:00,000", "00:00:01,000", "Hi."⟩] none
    ∧ optimizeCore [⟨"00:00:00,000", "00:00:01,000", "Hi"⟩] none
      = smart_merge [⟨"00:00:00,000", "00:00:01,000", "Hi"⟩] none :=
  ⟨(detect_punctuation_spec _ none).2.1 (by with_unfolding_all decide),
   (detect_punctuation_spec _ none).2.2 (by with_unfolding_all decide)⟩

/-! ## C10: `get_optimization_stats` vs. the applied optimization -/

/-- Result of `get_optimization_stats` (pure core after `_parse_srt`;
Python's `round(..., 2)` display rounding of the percentage is not
modelled). -/
structure OptimizationStats where
  original_segments : Nat
  optimized_segments : Nat
  reduction_percentage : ℚ

/-- `SubtitleOptimizer.get_optimization_stats`: note the call
`self._merge_segments(segments)` — always the punctuation-driven merge,
always with `language=None`. -/
def get_optimization_stats (segments : List OptSeg) : OptimizationStats :=
  let merged := merge_segments segments none
  { original_segments := segments.length
    optimized_segments := merged.length
    reduction_percentage :=
      if segments ≠ [] then (1 - (merged.length : ℚ) / (segments.length : ℚ)) * 100
      else 0 }

/-- C10: the stats used for the orchestrator's 30%-reduction gate always
count the segments of the punctuation-driven merge with no language hint,
even on inputs where `optimize_srt_file` actually produced its output with
the heuristic merge — exhibited by a punctuation-free input where the two
merges disagree on the segment count. -/
theorem get_optimization_stats_uses_merge_segments_only :
    (∀ segments : List OptSeg,
      (get_optimization_stats segments).optimized_segments
        = (merge_segments segments none).length)
    ∧ ∃ segments : List OptSeg, ∃ language : Option String,
        detect_punctuation segments = false
        ∧ optimizeCore segments language = smart_merge segments language
        ∧ (get_optimization_stats segments).optimized_segments
            ≠ (optimizeCore segments language).length := by
  refine ⟨fun segments => rfl, ?_⟩
  refine ⟨[⟨"00:00:00,000", "00:00:01,000", String.mk (List.replicate 40 'a')⟩,
           ⟨"00:00:10,000", "00:00:11,000", String.mk (List.replicate 40 'b')⟩], none,
      ?_, ?_, ?_⟩
  · with_unfolding_all decide
  · with_unfolding_all decide
  · with_unfolding_all decide

/-! ## SubtitleProcessor (`subtitle.py`): keyframes and text lookup -/

/-- `SubtitleSegment` dataclass of `subtitle.py` (times in seconds). -/
structure SubtitleSegment where
  index : Int
  start_time : ℚ
  end_time : ℚ
  text : String
deriving DecidableEq

/-- `SubtitleProcessor.get_keyframe_timestamps` (`self.segments` passed
explicitly). -/
def get_keyframe_timestamps (segments : List SubtitleSegment) (offset : ℚ := 0)
    (position : String := "middle") : List ℚ :=
  if segments = [] then []
  else segments.map (fun segment =>
    let ts :=
      if position = "start" then segment.start_time
      else if position = "end" then segment.end_time
      else (segment.start_time + segment.end_time) / 2
    max 0 (ts + offset))

/-- The scan loop of `get_subtitle_at_time`; `lastSeg` is
`self.segments[-1]` (dataclass equality is field-wise equality). -/
def subtitleScan (lastSeg : SubtitleSegment) (timestamp : ℚ) :
    List SubtitleSegment → String
  | [] => ""
  | segment :: rest =>
      if segment.start_time ≤ timestamp ∧ timestamp < segment.end_time then segment.text
      else if segment = lastSeg ∧ timestamp = segment.end_time then segment.text
      else subtitleScan lastSeg timestamp rest

/-- `SubtitleProcessor.get_subtitle_at_time` (an empty segment list never
enters the loop and falls through to `""`). -/
def get_subtitle_at_time (segments : List SubtitleSegment) (timestamp : ℚ) : String :=
  match segments.getLast? with
  | none => ""
  | some lastSeg => subtitleScan lastSeg timestamp segments

/-- Well-formed segment lists per the data model: positive-duration
segments, ordered and non-overlapping. -/
def SegsWellFormed (segments : List SubtitleSegment) : Prop :=
  (∀ s ∈ segments, s.start_time < s.end_time)
  ∧ segments.Chain' (fun a b => a.end_time ≤ b.start_time)

theorem SegsWellFormed.tail_wf {a : SubtitleSegment} {rest : List SubtitleSegment}
    (hwf : SegsWellFormed (a :: rest)) : SegsWellFormed rest :=
  ⟨fun s hs => hwf.1 s (List.mem_cons_of_mem _ hs), hwf.2.tail⟩

theorem head_end_le {a : SubtitleSegment} {rest : List SubtitleSegment}
    (hwf : SegsWellFormed (a :: rest)) :
    ∀ s ∈ rest, a.end_time ≤ s.start_time := by
  induction rest generalizing a with
  | nil => intro s hs; cases hs
  | cons b t ih =>
      intro s hs
      have hab : a.end_time ≤ b.start_time := (List.chain'_cons.mp hwf.2).1
      rcases List.mem_cons.mp hs with rfl | hmem
      · exact hab
      · have hb : b.start_time < b.end_time := hwf.1 b (by simp)
        have hbs := ih hwf.tail_wf s hmem
        linarith

theorem subtitleScan_interval {t : ℚ} :
    ∀ (l : List SubtitleSegment), SegsWellFormed l →
      ∀ (hne : l ≠ []) (s : SubtitleSegment), s ∈ l →
        s.start_time ≤ t → t < s.end_time →
        subtitleScan (l.getLast hne) t l = s.text := by
  intro l
  induction l with
  | nil => intro _ hne; exact absurd rfl hne
  | cons a rest ih =>
      intro hwf hne s hs h1 h2
      rcases List.mem_cons.mp hs with rfl | hmem
      · simp only [subtitleScan]
        rw [if_pos ⟨h1, h2⟩]
      · have hrest : rest ≠ [] := List.ne_nil_of_mem hmem
        have hlast : (a :: rest).getLast hne = rest.getLast hrest := List.getLast_cons hrest
        have hc1 : ¬ (a.start_time ≤ t ∧ t < a.end_time) := by
          rintro ⟨_, ha2⟩
          have hle := head_end_le hwf s hmem
          linarith
        have hc2 : ¬ (a = (a :: rest).getLast hne ∧ t = a.end_time) := by
          rintro ⟨heq, _⟩
          have hmem2 : rest.getLast hrest ∈ rest := List.getLast_mem hrest
          have hle := head_end_le hwf _ hmem2
          rw [hlast] at heq
          rw [← heq] at hle
          have hstrict := hwf.1 a (List.mem_cons_self _ _)
          linarith
        simp only [subtitleScan]
        rw [if_neg hc1, if_neg hc2, hlast]
        exact ih hwf.tail_wf hrest s hmem h1 h2

theorem subtitleScan_last_end {t : ℚ} :
    ∀ (l : List SubtitleSegment), SegsWellFormed l →
      ∀ (hne : l ≠ []), t = (l.getLast hne).end_time →
        subtitleScan (l.getLast hne) t l = (l.getLast hne).text := by
  intro l
  induction l with
  | nil => intro _ hne; exact absurd rfl hne
  | cons a rest ih =>
      intro hwf hne ht
      cases rest with
      | nil =>
          have hgl : ([a] : List SubtitleSegment).getLast hne = a := rfl
          rw [hgl] at ht ⊢
          simp only [subtitleScan]
          rw [if_neg (by rintro ⟨_, hlt⟩; rw [ht] at hlt; exact lt_irrefl _ hlt)]
          simp [ht]
      | cons b t' =>
          have hrest : (b :: t') ≠ [] := by simp
          have hlast : (a :: b :: t').getLast hne = (b :: t').getLast hrest :=
            List.getLast_cons hrest
          have hmem2 : (b :: t').getLast hrest ∈ b :: t' := List.getLast_mem hrest
          have hle := head_end_le hwf _ hmem2
          have hstrict2 := hwf.1 _ (List.mem_cons_of_mem _ hmem2)
          rw [hlast] at ht ⊢
          have hc1 : ¬ (a.start_time ≤ t ∧ t < a.end_time) := by
            rintro ⟨_, ha2⟩
            linarith
          have hc2 : ¬ (a = (b :: t').getLast hrest ∧ t = a.end_time) := by
            rintro ⟨heq, _⟩
            rw [← heq] at hle
            have hstrict := hwf.1 a (List.mem_cons_self _ _)
            linarith
          simp only [subtitleScan]
          rw [if_neg hc1, if_neg hc2]
          exact ih hwf.tail_wf hrest ht

theorem subtitleScan_no_match {t : ℚ} {lastSeg : SubtitleSegment} :
    ∀ (l : List SubtitleSegment),
      (∀ s ∈ l, ¬ (s.start_time ≤ t ∧ t < s.end_time)) →
      (∀ s ∈ l, ¬ (s = lastSeg ∧ t = s.end_time)) →
      subtitleScan lastSeg t l = "" := by
  intro l
  induction l with
  | nil => intro _ _; rfl
  | cons a rest ih =>
      intro h1 h2
      simp only [subtitleScan]
      rw [if_neg (h1 a (List.mem_cons_self _ _)),
        if_neg (h2 a (List.mem_cons_self _ _))]
      exact ih (fun s hs => h1 s (List.mem_cons_of_mem _ hs))
        (fun s hs => h2 s (List.mem_cons_of_mem _ hs))

/-- C8: on well-formed segment lists, `get_subtitle_at_time` returns the
text of the segment whose half-open interval `start ≤ t < end` contains
the timestamp; a timestamp equal to the final segment's end time returns
the final segment's text (the tail-only closed bound); otherwise the empty
string. -/
theorem get_subtitle_at_time_spec (segments : List SubtitleSegment) (timestamp : ℚ)
    (hwf : SegsWellFormed segments) :
    (∀ s ∈ segments, s.start_time ≤ timestamp → timestamp < s.end_time →
        get_subtitle_at_time segments timestamp = s.text)
    ∧ (∀ hne : segments ≠ [],
        timestamp = (segments.getLast hne).end_time →
        get_subtitle_at_time segments timestamp = (segments.getLast hne).text)
    ∧ ((∀ s ∈ segments, ¬ (s.start_time ≤ timestamp ∧ timestamp < s.end_time)) →
        (∀ hne : segments ≠ [], timestamp ≠ (segments.getLast hne).end_time) →
        get_subtitle_at_time segments timestamp = "") := by
  refine ⟨?_, ?_, ?_⟩
  · intro s hs h1 h2
    have hne : segments ≠ [] := List.ne_nil_of_mem hs
    have hrw : get_subtitle_at_time segments timestamp
        = subtitleScan (segments.getLast hne) timestamp segments := by
      unfold get_subtitle_at_time
      rw [List.getLast?_eq_getLast segments hne]
    rw [hrw]
    exact subtitleScan_interval segments hwf hne s hs h1 h2
  · intro hne ht
    have hrw : get_subtitle_at_time segments timestamp
        = subtitleScan (segments.getLast hne) timestamp segments := by
      unfold get_subtitle_at_time
      rw [List.getLast?_eq_getLast segments hne]
    rw [hrw]
    exact subtitleScan_last_end segments hwf hne ht
  · intro hno hlast
    rcases eq_or_ne segments [] with rfl | hne
    · rfl
    · have hrw : get_subtitle_at_time segments timestamp
          = subtitleScan (segments.getLast hne) timestamp segments := by
        unfold get_subtitle_at_time
        rw [List.getLast?_eq_getLast segments hne]
      rw [hrw]
      refine subtitleScan_no_match segments hno (fun s hs => ?_)
      rintro ⟨rfl, ht⟩
      exact hlast hne ht

/-- C8 witness: a two-segment list evaluated at an interior point, at the
final end time, and past the end. -/
theorem get_subtitle_at_time_spec_witness :
    SegsWellFormed [⟨1, 0, 1, "A"⟩, ⟨2, 1, 2, "B"⟩]
    ∧ get_subtitle_at_time [⟨1, 0, 1, "A"⟩, ⟨2, 1, 2, "B"⟩] (3 / 2) = "B"
    ∧ get_subtitle_at_time [⟨1, 0, 1, "A"⟩, ⟨2, 1, 2, "B"⟩] 2 = "B"
    ∧ get_subtitle_at_time [⟨1, 0, 1, "A"⟩, ⟨2, 1, 2, "B"⟩] 5 = "" := by
  have hwf : SegsWellFormed [⟨1, 0, 1, "A"⟩, ⟨2, 1, 2, "B"⟩] := by
    constructor
    · with_unfolding_all decide
    · exact List.chain'_cons.mpr ⟨by with_unfolding_all decide, List.chain'_singleton _⟩
  refine ⟨hwf, ?_, ?_, ?_⟩
  · exact (get_subtitle_at_time_spec _ _ hwf).1 ⟨2, 1, 2, "B"⟩ (by simp)
      (by with_unfolding_all decide) (by with_unfolding_all decide)
  · refine (get_subtitle_at_time_spec _ _ hwf).2.1 (by simp) ?_
    have h : ([⟨1, 0, 1, "A"⟩, ⟨2, 1, 2, "B"⟩] : List SubtitleSegment).getLast
        (by simp) = ⟨2, 1, 2, "B"⟩ := rfl
    rw [h]
  · refine (get_subtitle_at_time_spec _ _ hwf).2.2 ?_ (fun hne => ?_)
    · with_unfolding_all decide
    · have h : ([⟨1, 0, 1, "A"⟩, ⟨2, 1, 2, "B"⟩] : List SubtitleSegment).getLast
          hne = ⟨2, 1, 2, "B"⟩ := rfl
      rw [h]
      with_unfolding_all decide

/-- C9: `get_keyframe_timestamps` yields exactly one timestamp per segment
in order — the segment's start, end, or midpoint according to `position`,
shifted by the (possibly negative) offset and clamped at zero — and agrees
with the spec's worked examples. -/
theorem get_keyframe_timestamps_spec :
    (∀ (segments : List SubtitleSegment) (offset : ℚ) (position : String),
      get_keyframe_timestamps segments offset position
        = segments.map (fun segment =>
            max 0 ((if position = "start" then segment.start_time
                    else if position = "end" then segment.end_time
                    else (segment.start_time + segment.end_time) / 2) + offset)))
    ∧ get_keyframe_timestamps [⟨1, 10, 12, "x"⟩] 0 "middle" = [11]
    ∧ get_keyframe_timestamps [⟨1, 1 / 2, 3 / 2, "y"⟩] (-1) "middle" = [0] := by
  refine ⟨fun segments offset position => ?_, ?_, ?_⟩
  · unfold get_keyframe_timestamps
    split
    · rename_i h
      rw [h]
      rfl
    · rfl
  · with_unfolding_all decide
  · with_unfolding_all decide

/-! ## AITranslationService (`ai_translator.py`) -/

/-- `AIProvider` enum (from `ai_outline.py`). -/
inductive AIProvider
  | openai
  | claude
  | gemini
  | ollama
deriving DecidableEq

/-- `AITranslationService._get_target_char_count`. -/
def get_target_char_count (provider : Option AIProvider) : Nat :=
  if provider = some AIProvider.ollama then 300 else 1000

/-- The accumulation loop of `_calculate_batch_by_char_count` (arguments:
remaining texts, `accumulated_chars`, `batch_count`). -/
def batchCountGo (target_chars max_batch_size : Nat) :
    List String → Nat → Nat → Nat
  | [], _, batch_count => batch_count
  | text :: rest, accumulated_chars, batch_count =>
      if accumulated_chars + text.length > target_chars then
        if batch_count = 0 then 1 else batch_count
      else
        let bc := batch_count + 1
        if bc ≥ max_batch_size then bc
        else batchCountGo target_chars max_batch_size rest (accumulated_chars + text.length) bc

/-- `AITranslationService._calculate_batch_by_char_count`. -/
def calculate_batch_by_char_count (texts : List String)
    (provider : Option AIProvider := none) (max_batch_size : Nat := 5) : Nat :=
  if texts = [] then 0
  else
    let target_chars := get_target_char_count provider
    max 1 (min (batchCountGo target_chars max_batch_size texts 0 0) max_batch_size)

/-- The count-mismatch guard shared by `_translate_with_openai` and the
three other provider wrappers: `if len(translations) != len(texts):
translations = texts` — the whole batch's originals replace the parse. -/
def providerCountFallback (translations texts : List String) : List String :=
  if translations.length ≠ texts.length then texts else translations

/-- The padding loop of `translate_batch`
(`while len(translated_batch) < len(batch): translated_batch.append(
batch[len(translated_batch)])`). -/
def padWithOriginals (translated_batch batch : List String) : List String :=
  translated_batch ++ batch.drop translated_batch.length

/-- One batch dispatch inside `translate_batch`'s `try`: a successful
backend reply is padded up to the batch length with originals; a raised
exception substitutes the entire batch's originals. -/
def batchOutcome (backend : List String → Except String (List String))
    (batch : List String) : List String :=
  match backend batch with
  | Except.ok translated_batch => padWithOriginals translated_batch batch
  | Except.error _ => batch

/-- The `while remaining_texts` loop of `translate_batch` under dynamic
batching (the default; the legacy fixed-size path guarded by
`use_dynamic_batching=False` is never taken by this repository and is not
modelled).  Each iteration consumes `current_batch_size ≥ 1` texts, so
fuel equal to the text count makes the fuel-exhaustion branch
unreachable. -/
def translateLoop (provider : AIProvider)
    (backend : List String → Except String (List String)) :
    Nat → List String → List String
  | _, [] => []
  | 0, _ :: _ => []
  | fuel + 1, remaining_texts@(_ :: _) =>
      let current_batch_size := calculate_batch_by_char_count remaining_texts (some provider)
      batchOutcome backend (remaining_texts.take current_batch_size)
        ++ translateLoop provider backend fuel (remaining_texts.drop current_batch_size)

/-- `AITranslationService.translate_batch` (dynamic batching; the network
call and response parsing of the four `_translate_with_*` wrappers are
abstracted as `backend`). -/
def translate_batch (texts : List String) (provider : AIProvider)
    (backend : List String → Except String (List String)) : List String :=
  if texts = [] then [] else translateLoop provider backend texts.length texts

/-- The sequence of batches `translate_batch` dispatches (same loop
skeleton, collecting `batch` instead of its outcome). -/
def dispatchLoop (provider : AIProvider) : Nat → List String → List (List String)
  | _, [] => []
  | 0, _ :: _ => []
  | fuel + 1, remaining_texts@(_ :: _) =>
      let current_batch_size := calculate_batch_by_char_count remaining_texts (some provider)
      remaining_texts.take current_batch_size
        :: dispatchLoop provider fuel (remaining_texts.drop current_batch_size)

/-- The batches dispatched by `translate_batch` on `texts`. -/
def dispatchBatches (texts : List String) (provider : AIProvider) :
    List (List String) :=
  if texts = [] then [] else dispatchLoop provider texts.length texts

/-- The wrappers' count guard makes every successful dispatch return
exactly one entry per batch item — the guarantee `translate_batch`'s
length-preservation rests on. -/
theorem providerCountFallback_length (translations texts : List String) :
    (providerCountFallback translations texts).length = texts.length := by
  unfold providerCountFallback
  split
  · rfl
  · rename_i h
    exact not_ne_iff.mp h

/-- C6 counterexample: with a parse of 1 translation for a batch of 2, the
provider wrapper discards the successfully parsed earlier entry and
substitutes the whole batch (`["a","b"]`), not `["X","b"]` as the claim's
keep-earlier-pad-trailing reading predicts; `translate_batch`'s trailing
padding then has nothing to do. -/
theorem provider_undercount_discards_parsed :
    providerCountFallback ["X"] ["a", "b"] = ["a", "b"]
    ∧ padWithOriginals (providerCountFallback ["X"] ["a", "b"]) ["a", "b"] = ["a", "b"]
    ∧ padWithOriginals (providerCountFallback ["X"] ["a", "b"]) ["a", "b"] ≠ ["X", "b"] := by
  refine ⟨rfl, rfl, by decide⟩

/-- C6 (amended): on an undercounted parse the provider wrapper substitutes
the ENTIRE batch's original source texts (earlier parsed translations are
discarded, not kept), so no position is left without a value; the
trailing-entry padding in `translate_batch` then leaves the batch
unchanged. -/
theorem provider_undercount_substitutes_batch (parsed batch : List String)
    (h : parsed.length < batch.length) :
    providerCountFallback parsed batch = batch
    ∧ padWithOriginals (providerCountFallback parsed batch) batch = batch
    ∧ (padWithOriginals (providerCountFallback parsed batch) batch).length = batch.length := by
  have h1 : providerCountFallback parsed batch = batch := by
    unfold providerCountFallback
    rw [if_pos (Nat.ne_of_lt h)]
  have h2 : padWithOriginals batch batch = batch := by
    unfold padWithOriginals
    simp
  refine ⟨h1, by rw [h1, h2], by rw [h1, h2]⟩

/-- C6 witness: the amended behaviour at the counterexample's input. -/
theorem provider_undercount_substitutes_batch_witness :
    (["X"] : List String).length < (["a", "b"] : List String).length
    ∧ providerCountFallback ["X"] ["a", "b"] = ["a", "b"]
    ∧ padWithOriginals (providerCountFallback ["X"] ["a", "b"]) ["a", "b"] = ["a", "b"] :=
  ⟨by decide,
   (provider_undercount_substitutes_batch ["X"] ["a", "b"] (by decide)).1,
   (provider_undercount_substitutes_batch ["X"] ["a", "b"] (by decide)).2.1⟩

/-! ## C2/C5: properties of the dynamic batching loop -/

/-- Total character count of a list of texts. -/
def sumLens (l : List String) : Nat := (l.map String.length).sum

theorem sumLens_append (x y : List String) : sumLens (x ++ y) = sumLens x + sumLens y := by
  unfold sumLens
  rw [List.map_append, List.sum_append]

theorem sumLens_take_le (l : List String) (a : Nat) : sumLens (l.take a) ≤ sumLens l := by
  conv_rhs => rw [← List.take_append_drop a l]
  rw [sumLens_append]
  omega

theorem sumLens_take_mono {l : List String} {a b : Nat} (h : a ≤ b) :
    sumLens (l.take a) ≤ sumLens (l.take b) := by
  have h1 : l.take a = (l.take b).take a := by rw [List.take_take, min_eq_left h]
  rw [h1]
  exact sumLens_take_le _ _

/-- `batchCountGo` never returns less than its running count. -/
theorem batchCountGo_ge (target mbs : Nat) :
    ∀ (l : List String) (acc cnt : Nat), cnt ≤ batchCountGo target mbs l acc cnt := by
  intro l
  induction l with
  | nil => intro acc cnt; exact le_refl _
  | cons t rest ih =>
      intro acc cnt
      simp only [batchCountGo]
      split
      · split
        · omega
        · exact le_refl _
      · split
        · omega
        · exact le_trans (by omega) (ih (acc + t.length) (cnt + 1))

/-- On a non-empty list started from count 0 the loop returns at least 1. -/
theorem batchCountGo_pos (target mbs : Nat) (t : String) (rest : List String) (acc : Nat) :
    1 ≤ batchCountGo target mbs (t :: rest) acc 0 := by
  simp only [batchCountGo]
  split
  · simp
  · split
    · omega
    · exact le_trans (by omega) (batchCountGo_ge target mbs rest (acc + t.length) 1)

/-- The texts counted by `batchCountGo` fit in the character target, except
in the bumped single-oversize-item case. -/
theorem batchCountGo_take_sum (target mbs : Nat) :
    ∀ (l : List String) (acc cnt : Nat), (cnt = 0 → acc = 0) → acc ≤ target →
      sumLens (l.take (batchCountGo target mbs l acc cnt - cnt)) + acc ≤ target
      ∨ (batchCountGo target mbs l acc cnt = 1 ∧ cnt = 0) := by
  intro l
  induction l with
  | nil =>
      intro acc cnt _ hacc
      left
      simp only [batchCountGo]
      simpa [sumLens] using hacc
  | cons t rest ih =>
      intro acc cnt h0 hacc
      simp only [batchCountGo]
      by_cases hex : acc + t.length > target
      · rw [if_pos hex]
        by_cases hcnt : cnt = 0
        · rw [if_pos hcnt]
          exact Or.inr ⟨rfl, hcnt⟩
        · rw [if_neg hcnt]
          left
          simpa [sumLens] using hacc
      · rw [if_neg hex]
        push_neg at hex
        by_cases hmb : cnt + 1 ≥ mbs
        · rw [if_pos hmb]
          left
          have h1 : cnt + 1 - cnt = 1 := by omega
          rw [h1]
          cases rest <;> simp [sumLens] <;> omega
        · rw [if_neg hmb]
          have hge := batchCountGo_ge target mbs rest (acc + t.length) (cnt + 1)
          rcases ih (acc + t.length) (cnt + 1) (by omega) hex with hleft | hright
          · left
            have h2 : batchCountGo target mbs rest (acc + t.length) (cnt + 1) - cnt
                = (batchCountGo target mbs rest (acc + t.length) (cnt + 1) - (cnt + 1)) + 1 := by
              omega
            rw [h2, List.take_succ_cons]
            have h3 : sumLens (t :: rest.take
                  (batchCountGo target mbs rest (acc + t.length) (cnt + 1) - (cnt + 1)))
                = t.length + sumLens (rest.take
                  (batchCountGo target mbs rest (acc + t.length) (cnt + 1) - (cnt + 1))) := by
              simp [sumLens]
            omega
          · exact absurd hright.2 (by omega)

theorem calculate_batch_pos (texts : List String) (provider : Option AIProvider)
    (h : texts ≠ []) : 1 ≤ calculate_batch_by_char_count texts provider := by
  unfold calculate_batch_by_char_count
  rw [if_neg h]
  exact le_max_left _ _

theorem calculate_batch_le_five (texts : List String) (provider : Option AIProvider) :
    calculate_batch_by_char_count texts provider ≤ 5 := by
  unfold calculate_batch_by_char_count
  split
  · omega
  · exact max_le (by omega) (min_le_right _ _)

/-- The selected batch respects the character target unless it is the
single-item bump. -/
theorem calculate_batch_sum (texts : List String) (provider : Option AIProvider)
    (h : texts ≠ []) :
    sumLens (texts.take (calculate_batch_by_char_count texts provider))
        ≤ get_target_char_count provider
    ∨ calculate_batch_by_char_count texts provider = 1 := by
  have hcalc : calculate_batch_by_char_count texts provider
      = max 1 (min (batchCountGo (get_target_char_count provider) 5 texts 0 0) 5) := by
    unfold calculate_batch_by_char_count
    rw [if_neg h]
  rw [hcalc]
  have hge1 : 1 ≤ batchCountGo (get_target_char_count provider) 5 texts 0 0 := by
    obtain ⟨t, rest, rfl⟩ := List.exists_cons_of_ne_nil h
    exact batchCountGo_pos _ _ _ _ _
  rcases batchCountGo_take_sum (get_target_char_count provider) 5 texts 0 0
      (fun _ => rfl) (by omega) with hleft | hright
  · left
    have hk : max 1 (min (batchCountGo (get_target_char_count provider) 5 texts 0 0) 5)
        ≤ batchCountGo (get_target_char_count provider) 5 texts 0 0 := by omega
    have hmono := sumLens_take_mono (l := texts) hk
    simp only [Nat.sub_zero, Nat.add_zero] at hleft
    omega
  · right
    rw [hright.1]
    simp

theorem batchOutcome_length {backend : List String → Except String (List String)}
    (hlen : ∀ b r, backend b = Except.ok r → r.length = b.length)
    (batch : List String) : (batchOutcome backend batch).length = batch.length := by
  unfold batchOutcome
  cases hb : backend batch with
  | ok r =>
      have hr := hlen batch r hb
      unfold padWithOriginals
      simp [hr]
  | error e => rfl

theorem batchOutcome_error {backend : List String → Except String (List String)}
    (batch : List String) (herr : ∃ e, backend batch = Except.error e) :
    batchOutcome backend batch = batch := by
  obtain ⟨e, he⟩ := herr
  unfold batchOutcome
  rw [he]

theorem dispatchLoop_join (provider : AIProvider) :
    ∀ (fuel : Nat) (l : List String), l.length ≤ fuel →
      (dispatchLoop provider fuel l).flatten = l := by
  intro fuel
  induction fuel with
  | zero =>
      intro l hl
      have hnil : l = [] := List.eq_nil_of_length_eq_zero (by omega)
      subst hnil
      rfl
  | succ fuel ih =>
      intro l hl
      cases l with
      | nil => rfl
      | cons x rest =>
          have hk1 : 1 ≤ calculate_batch_by_char_count (x :: rest) (some provider) :=
            calculate_batch_pos _ _ (by simp)
          have hdrop : ((x :: rest).drop
              (calculate_batch_by_char_count (x :: rest) (some provider))).length ≤ fuel := by
            rw [List.length_drop]
            simp only [List.length_cons] at hl ⊢
            omega
          show (List.take _ (x :: rest) :: dispatchLoop provider fuel _).flatten = x :: rest
          rw [List.flatten_cons, ih _ hdrop, List.take_append_drop]

theorem dispatchLoop_batches (provider : AIProvider) :
    ∀ (fuel : Nat) (l : List String), l.length ≤ fuel →
      ∀ b ∈ dispatchLoop provider fuel l,
        b ≠ [] ∧ b.length ≤ 5
          ∧ (sumLens b ≤ get_target_char_count (some provider) ∨ b.length = 1) := by
  intro fuel
  induction fuel with
  | zero =>
      intro l hl b hb
      have hnil : l = [] := List.eq_nil_of_length_eq_zero (by omega)
      subst hnil
      cases hb
  | succ fuel ih =>
      intro l hl b hb
      cases l with
      | nil => cases hb
      | cons x rest =>
          have hk1 : 1 ≤ calculate_batch_by_char_count (x :: rest) (some provider) :=
            calculate_batch_pos _ _ (by simp)
          have hk5 : calculate_batch_by_char_count (x :: rest) (some provider) ≤ 5 :=
            calculate_batch_le_five _ _
          have hdrop : ((x :: rest).drop
              (calculate_batch_by_char_count (x :: rest) (some provider))).length ≤ fuel := by
            rw [List.length_drop]
            simp only [List.length_cons] at hl ⊢
            omega
          rcases List.mem_cons.mp hb with rfl | hmem
          · refine ⟨?_, ?_, ?_⟩
            · have : (List.take (calculate_batch_by_char_count (x :: rest) (some provider))
                  (x :: rest)).length
                  = min (calculate_batch_by_char_count (x :: rest) (some provider))
                      (x :: rest).length := List.length_take _ _
              intro hnil
              rw [hnil] at this
              simp only [List.length_nil, List.length_cons] at this
              omega
            · rw [List.length_take]
              omega
            · rcases calculate_batch_sum (x :: rest) (some provider) (by simp) with hs | hs
              · exact Or.inl hs
              · right
                rw [hs, List.length_take]
                simp
          · exact ih _ hdrop b hmem

theorem translateLoop_eq_bind (provider : AIProvider)
    (backend : List String → Except String (List String)) :
    ∀ (fuel : Nat) (l : List String), l.length ≤ fuel →
      translateLoop provider backend fuel l
        = (dispatchLoop provider fuel l).flatMap (batchOutcome backend) := by
  intro fuel
  induction fuel with
  | zero =>
      intro l hl
      have hnil : l = [] := List.eq_nil_of_length_eq_zero (by omega)
      subst hnil
      rfl
  | succ fuel ih =>
      intro l hl
      cases l with
      | nil => rfl
      | cons x rest =>
          have hk1 : 1 ≤ calculate_batch_by_char_count (x :: rest) (some provider) :=
            calculate_batch_pos _ _ (by simp)
          have hdrop : ((x :: rest).drop
              (calculate_batch_by_char_count (x :: rest) (some provider))).length ≤ fuel := by
            rw [List.length_drop]
            simp only [List.length_cons] at hl ⊢
            omega
          show batchOutcome backend _ ++ translateLoop provider backend fuel _
              = (List.take _ (x :: rest) :: dispatchLoop provider fuel _).flatMap
                  (batchOutcome backend)
          rw [List.flatMap_cons, ih _ hdrop]

theorem translateLoop_length {backend : List String → Except String (List String)}
    (provider : AIProvider)
    (hlen : ∀ b r, backend b = Except.ok r → r.length = b.length) :
    ∀ (fuel : Nat) (l : List String), l.length ≤ fuel →
      (translateLoop provider backend fuel l).length = l.length := by
  intro fuel
  induction fuel with
  | zero =>
      intro l hl
      have hnil : l = [] := List.eq_nil_of_length_eq_zero (by omega)
      subst hnil
      rfl
  | succ fuel ih =>
      intro l hl
      cases l with
      | nil => rfl
      | cons x rest =>
          have hk1 : 1 ≤ calculate_batch_by_char_count (x :: rest) (some provider) :=
            calculate_batch_pos _ _ (by simp)
          have hdrop : ((x :: rest).drop
              (calculate_batch_by_char_count (x :: rest) (some provider))).length ≤ fuel := by
            rw [List.length_drop]
            simp only [List.length_cons] at hl ⊢
            omega
          show (batchOutcome backend _ ++ translateLoop provider backend fuel _).length
              = (x :: rest).length
          rw [List.length_append, batchOutcome_length hlen, ih _ hdrop,
            List.length_take, List.length_drop]
          simp only [List.length_cons]
          omega

theorem translateLoop_all_error {backend : List String → Except String (List String)}
    (provider : AIProvider)
    (herr : ∀ b, ∃ e, backend b = Except.error e) :
    ∀ (fuel : Nat) (l : List String), l.length ≤ fuel →
      translateLoop provider backend fuel l = l := by
  intro fuel
  induction fuel with
  | zero =>
      intro l hl
      have hnil : l = [] := List.eq_nil_of_length_eq_zero (by omega)
      subst hnil
      rfl
  | succ fuel ih =>
      intro l hl
      cases l with
      | nil => rfl
      | cons x rest =>
          have hk1 : 1 ≤ calculate_batch_by_char_count (x :: rest) (some provider) :=
            calculate_batch_pos _ _ (by simp)
          have hdrop : ((x :: rest).drop
              (calculate_batch_by_char_count (x :: rest) (some provider))).length ≤ fuel := by
            rw [List.length_drop]
            simp only [List.length_cons] at hl ⊢
            omega
          show batchOutcome backend _ ++ translateLoop provider backend fuel _ = x :: rest
          rw [batchOutcome_error _ (herr _), ih _ hdrop, List.take_append_drop]

/-- C2: `translate_batch` is length-preserving (given the wrappers'
guarantee that a successful dispatch returns one translation per batch
item), degrades to the identity when every batch dispatch raises, and
equals the independent concatenation of per-batch outcomes — a failing
batch never affects the dispatch or inclusion of the following batches. -/
theorem translate_batch_spec (texts : List String) (provider : AIProvider)
    (backend : List String → Except String (List String))
    (hlen : ∀ b r, backend b = Except.ok r → r.length = b.length) :
    (translate_batch texts provider backend).length = texts.length
    ∧ ((∀ b, ∃ e, backend b = Except.error e) →
        translate_batch texts provider backend = texts)
    ∧ translate_batch texts provider backend
        = (dispatchBatches texts provider).flatMap (batchOutcome backend) := by
  unfold translate_batch dispatchBatches
  split
  · rename_i hnil
    subst hnil
    exact ⟨rfl, fun _ => rfl, rfl⟩
  · exact ⟨translateLoop_length provider hlen _ _ le_rfl,
      fun herr => translateLoop_all_error provider herr _ _ le_rfl,
      translateLoop_eq_bind provider backend _ _ le_rfl⟩

/-- C2 witness: a backend that always raises leaves `["a","b","c"]`
unchanged, length-preserving. -/
theorem translate_batch_spec_witness :
    (translate_batch ["a", "b", "c"] AIProvider.openai
      (fun _ => Except.error "boom")).length = (["a", "b", "c"] : List String).length
    ∧ translate_batch ["a", "b", "c"] AIProvider.openai
        (fun _ => Except.error "boom") = ["a", "b", "c"] := by
  have h := translate_batch_spec ["a", "b", "c"] AIProvider.openai
    (fun _ => Except.error "boom") (fun b r hr => Except.noConfusion hr)
  exact ⟨h.1, h.2.1 (fun b => ⟨"boom", rfl⟩)⟩

/-- C5: under dynamic batching the dispatched batches form an ordered
partition of the input — their concatenation reconstructs the input with no
duplicates or omissions — and each batch is a non-empty contiguous slice of
at most 5 items whose accumulated character count stays within the
provider-dependent target unless the batch is a single item; and
`translate_batch` processes exactly these batches. -/
theorem dispatch_batches_partition (texts : List String) (provider : AIProvider) :
    (dispatchBatches texts provider).flatten = texts
    ∧ (∀ b ∈ dispatchBatches texts provider,
        b ≠ [] ∧ b.length ≤ 5
          ∧ (sumLens b ≤ get_target_char_count (some provider) ∨ b.length = 1))
    ∧ ∀ backend, translate_batch texts provider backend
        = (dispatchBatches texts provider).flatMap (batchOutcome backend) := by
  unfold translate_batch dispatchBatches
  split
  · rename_i hnil
    subst hnil
    exact ⟨rfl, fun b hb => absurd hb (by simp), fun backend => rfl⟩
  · exact ⟨dispatchLoop_join provider _ _ le_rfl,
      dispatchLoop_batches provider _ _ le_rfl,
      fun backend => translateLoop_eq_bind provider backend _ _ le_rfl⟩

/-! ## Pipeline orchestrator (`app.py`): the progress-event stream

`process_video_task` reports progress exclusively through
`log_job_progress`; the model below lists those calls in program order for
a run that reaches completion, with the percent sequences delivered by the
download / translation / frame-extraction callbacks and the compression
loop's frame count as parameters.  Python's float literals `0.15`, `0.04`,
`0.1` are modelled by the exact rationals they approximate; every claim
here concerns only ordering, which flooring of a nondecreasing sequence
preserves under either reading.  `int()` truncation equals `⌊⌋` on the
nonnegative values involved. -/

/-- `JobStatus` (`models/schemas.py`). -/
inductive JobStatus
  | pending
  | processing
  | completed
  | failed
deriving DecidableEq

/-- One call to `log_job_progress`: `None` arguments leave the job's
current value in place (the `message` argument carries no information the
claim concerns and is omitted). -/
structure LogCall where
  step : String
  status : Option JobStatus
  progress : Option Int
deriving DecidableEq

/-- A snapshot appended to the job's history. -/
structure ProgressEvent where
  step : String
  status : JobStatus
  progress : Int
deriving DecidableEq

/-- The history semantics of `log_job_progress`: update status/progress
when given, then append a snapshot of the current values. -/
def buildHistory : JobStatus → Int → List LogCall → List ProgressEvent
  | _, _, [] => []
  | st, pr, c :: rest =>
      ⟨c.step, c.status.getD st, c.progress.getD pr⟩
        :: buildHistory (c.status.getD st) (c.progress.getD pr) rest

/-- A `log_job_progress` call with explicit progress and no status change. -/
def pc (step : String) (progress : Int) : LogCall := ⟨step, none, some progress⟩

/-- A `log_job_progress` call with explicit progress and status. -/
def pcs (step : String) (st : JobStatus) (progress : Int) : LogCall :=
  ⟨step, some st, some progress⟩

/-- The branch switches of one `process_video_task` run (fields mirror the
conditions tested in the source; `use_ai_transcription` stands for
`request.use_ai_transcription and request.whisper_api_key`,
`outline_requested` for `request.generate_outline and request.ai_provider`).
Outline generation logs progress 92/95 whether it succeeds or fails, so no
switch is needed for it. -/
structure PipelineConfig where
  use_ai_transcription : Bool
  whisper_fails : Bool
  primary_subtitle_is_auto : Bool
  optimize_fails : Bool
  reduction_gt_30 : Bool
  translate_requested : Bool
  outline_requested : Bool
  ai_translation_fails : Bool

/-- `video_download_progress`: `20 + int(percent * 0.15)`. -/
def downloadCalls (pcts : List ℚ) : List LogCall :=
  pcts.map (fun percent => pc "download_video" (20 + ⌊percent * (15 / 100)⌋))

/-- `translation_progress`: `68 + int(percent * 0.04)`. -/
def translationCalls (pcts : List ℚ) : List LogCall :=
  pcts.map (fun percent => pc "translate" (68 + ⌊percent * (4 / 100)⌋))

/-- `frame_extraction_progress`: `75 + int(percent * 0.10)`. -/
def extractionCalls (pcts : List ℚ) : List LogCall :=
  pcts.map (fun percent => pc "frame_capture" (75 + ⌊percent * (10 / 100)⌋))

/-- The compression loop: report every 5 frames and on the last frame,
`86 + int(((i+1)/total*100) * 0.04)`. -/
def compressCalls (total_frames : Nat) : List LogCall :=
  ((List.range total_frames).filter
      (fun i => (i + 1) % 5 = 0 ∨ i + 1 = total_frames)).map
    (fun i : ℕ => pc "frame_optimize"
      (86 + ⌊(((i : ℚ) + 1) / (total_frames : ℚ) * 100) * (4 / 100)⌋))

/-- Subtitle-acquisition calls (Whisper branch with its
fall-back-to-YouTube path, or the direct YouTube branch). -/
def subtitleCalls (cfg : PipelineConfig) : List LogCall :=
  if cfg.use_ai_transcription then
    pc "ai_transcription" 40 ::
      (if cfg.whisper_fails then [pc "ai_transcription" 38, pc "fetch_subtitles" 47]
       else [pc "ai_transcription" 45])
  else [pc "fetch_subtitles" 40, pc "fetch_subtitles" 47]

/-- Conditional-optimization calls (auto captions: attempt, then one of
failure / applied / kept-original; manual captions: skip). -/
def optimizeCalls (cfg : PipelineConfig) : List LogCall :=
  if cfg.primary_subtitle_is_auto then
    pc "subtitle_optimize" 52 ::
      (if cfg.optimize_fails then [pc "subtitle_optimize" 52]
       else if cfg.reduction_gt_30 then [pc "subtitle_optimize" 55]
       else [pc "subtitle_optimize" 53])
  else [pc "subtitle_optimize" 50]

/-- Conditional-translation calls: the AI path logs 69 and, on failure,
falls back to the generic path's percent callbacks; the generic path logs
its callbacks directly; no translation logs 72 alone. -/
def translateStageCalls (cfg : PipelineConfig) (pcts : List ℚ) : List LogCall :=
  if cfg.translate_requested then
    pc "translate" 68 ::
      ((if cfg.outline_requested then
          pc "translate" 69 ::
            (if cfg.ai_translation_fails then translationCalls pcts else [])
        else translationCalls pcts)
      ++ [pc "translate" 72])
  else [pc "translate" 72]

/-- Conditional-outline calls (92 then 95 on success and on logged-and-
skipped failure alike; 92 alone when not requested). -/
def outlineCalls (cfg : PipelineConfig) : List LogCall :=
  if cfg.outline_requested then [pc "ai_outline" 92, pc "ai_outline" 95]
  else [pc "ai_outline" 92]

/-- Every `log_job_progress` call of a completed `process_video_task` run,
in program order (the `queued` call is issued at job creation in
`process_video`). -/
def pipelineCalls (cfg : PipelineConfig) (dl tr ex : List ℚ) (total_frames : Nat) :
    List LogCall :=
  [pcs "queued" JobStatus.pending 0,
   pcs "prepare" JobStatus.processing 5,
   pc "metadata" 10, pc "metadata" 12, pc "download_video" 20]
  ++ downloadCalls dl
  ++ [pc "download_video" 35, pc "fetch_subtitles" 38]
  ++ subtitleCalls cfg
  ++ [pc "subtitle_selection" 50]
  ++ optimizeCalls cfg
  ++ [pc "subtitle_parse" 58, pc "subtitle_parse" 62, pc "keyframe_selection" 65]
  ++ translateStageCalls cfg tr
  ++ [pc "frame_capture" 75]
  ++ extractionCalls ex
  ++ [pc "frame_capture" 85, pc "frame_optimize" 86]
  ++ compressCalls total_frames
  ++ [pc "frame_optimize" 90]
  ++ outlineCalls cfg
  ++ [pc "finalize" 98, pcs "complete" JobStatus.completed 100]

/-- The history of such a run (jobs are created with progress 0, status
pending). -/
def jobHistory (cfg : PipelineConfig) (dl tr ex : List ℚ) (total_frames : Nat) :
    List ProgressEvent :=
  buildHistory JobStatus.pending 0 (pipelineCalls cfg dl tr ex total_frames)

/-- A percent sequence a callback may deliver in normal operation:
nondecreasing, within [0, 100]. -/
def MonotonePcts (pcts : List ℚ) : Prop :=
  pcts.Chain' (· ≤ ·) ∧ ∀ p ∈ pcts, 0 ≤ p ∧ p ≤ 100

/-- Normal operation: no Whisper failure (whose fallback logs 38 after 40)
and no AI-translation failure (whose fallback re-enters the 68-71 callback
range after logging 69). -/
def NormalOperation (cfg : PipelineConfig) : Prop :=
  cfg.whisper_fails = false ∧ cfg.ai_translation_fails = false

/-! ### Bounded-chain machinery for the monotonicity proof -/

/-- `cbCalls lo hi calls`: replaying `calls` from carried progress `lo`
keeps the progress values nondecreasing and within `[lo, hi]`. -/
def cbCalls (lo hi : Int) : List LogCall → Bool
  | [] => decide (lo ≤ hi)
  | c :: rest =>
      match c.progress with
      | some v => decide (lo ≤ v) && decide (v ≤ hi) && cbCalls v hi rest
      | none => decide (lo ≤ hi) && cbCalls lo hi rest

theorem cbCalls_le {lo hi : Int} :
    ∀ {l : List LogCall}, cbCalls lo hi l = true → lo ≤ hi := by
  intro l
  induction l generalizing lo with
  | nil => intro h; exact of_decide_eq_true h
  | cons c rest ih =>
      intro h
      unfold cbCalls at h
      cases hc : c.progress with
      | some v =>
          rw [hc] at h
          simp only [Bool.and_eq_true, decide_eq_true_eq] at h
          exact le_trans h.1.1 h.1.2
      | none =>
          rw [hc] at h
          simp only [Bool.and_eq_true, decide_eq_true_eq] at h
          exact h.1

theorem cbCalls_weaken {lo lo2 hi : Int} (hlo : lo2 ≤ lo) :
    ∀ {l : List LogCall}, cbCalls lo hi l = true → cbCalls lo2 hi l = true := by
  intro l
  cases l with
  | nil =>
      intro h
      unfold cbCalls
      exact decide_eq_true (le_trans hlo (cbCalls_le h))
  | cons c rest =>
      intro h
      unfold cbCalls at h ⊢
      cases hc : c.progress with
      | some v =>
          rw [hc] at h
          simp only [Bool.and_eq_true, decide_eq_true_eq] at h ⊢
          exact ⟨⟨le_trans hlo h.1.1, h.1.2⟩, h.2⟩
      | none =>
          rw [hc] at h
          simp only [Bool.and_eq_true, decide_eq_true_eq] at h ⊢
          exact ⟨le_trans hlo h.1, cbCalls_weaken hlo h.2⟩

theorem cbCalls_append {lo m hi : Int} :
    ∀ {xs ys : List LogCall}, cbCalls lo m xs = true → cbCalls m hi ys = true →
      cbCalls lo hi (xs ++ ys) = true := by
  intro xs
  induction xs generalizing lo with
  | nil =>
      intro ys h1 h2
      exact cbCalls_weaken (cbCalls_le h1) h2
  | cons c rest ih =>
      intro ys h1 h2
      rw [List.cons_append]
      unfold cbCalls at h1 ⊢
      cases hc : c.progress with
      | some v =>
          rw [hc] at h1
          simp only [Bool.and_eq_true, decide_eq_true_eq] at h1 ⊢
          exact ⟨⟨h1.1.1, le_trans h1.1.2 (cbCalls_le h2)⟩, ih h1.2 h2⟩
      | none =>
          rw [hc] at h1
          simp only [Bool.and_eq_true, decide_eq_true_eq] at h1 ⊢
          exact ⟨le_trans h1.1 (cbCalls_le h2), ih h1.2 h2⟩

theorem cbCalls_cons_some {lo hi v : Int} {s : String} {rest : List LogCall} :
    cbCalls lo hi (pc s v :: rest) = true
      ↔ (lo ≤ v ∧ v ≤ hi ∧ cbCalls v hi rest = true) := by
  show (decide (lo ≤ v) && decide (v ≤ hi) && cbCalls v hi rest) = true ↔ _
  simp [and_assoc]

theorem buildHistory_bounds {hi : Int} :
    ∀ (calls : List LogCall) (st : JobStatus) (lo : Int), cbCalls lo hi calls = true →
      ∀ e ∈ buildHistory st lo calls, lo ≤ e.progress ∧ e.progress ≤ hi := by
  intro calls
  induction calls with
  | nil => intro st lo _ e he; cases he
  | cons c rest ih =>
      intro st lo h e he
      unfold cbCalls at h
      unfold buildHistory at he
      cases hc : c.progress with
      | some v =>
          rw [hc] at h he
          simp only [Bool.and_eq_true, decide_eq_true_eq] at h
          simp only [Option.getD_some] at he
          rcases List.mem_cons.mp he with rfl | hmem
          · exact ⟨h.1.1, h.1.2⟩
          · have hrec := ih _ v h.2 e hmem
            exact ⟨le_trans h.1.1 hrec.1, hrec.2⟩
      | none =>
          rw [hc] at h he
          simp only [Bool.and_eq_true, decide_eq_true_eq] at h
          simp only [Option.getD_none] at he
          rcases List.mem_cons.mp he with rfl | hmem
          · exact ⟨le_refl _, h.1⟩
          · exact ih _ lo h.2 e hmem

theorem buildHistory_pairwise {hi : Int} :
    ∀ (calls : List LogCall) (st : JobStatus) (lo : Int), cbCalls lo hi calls = true →
      (buildHistory st lo calls).Pairwise (fun e1 e2 => e1.progress ≤ e2.progress) := by
  intro calls
  induction calls with
  | nil => intro st lo _; exact List.Pairwise.nil
  | cons c rest ih =>
      intro st lo h
      obtain ⟨cstep, cstatus, cprog⟩ := c
      unfold cbCalls at h
      unfold buildHistory
      cases cprog with
      | some v =>
          simp only [Bool.and_eq_true, decide_eq_true_eq] at h
          refine List.pairwise_cons.mpr ⟨?_, ih _ v h.2⟩
          intro e he
          exact (buildHistory_bounds rest _ v h.2 e he).1
      | none =>
          simp only [Bool.and_eq_true, decide_eq_true_eq] at h
          refine List.pairwise_cons.mpr ⟨?_, ih _ lo h.2⟩
          intro e he
          exact (buildHistory_bounds rest _ lo h.2 e he).1

/-- A percent-callback block: calls mapped through `base + ⌊percent · c⌋`
from a carried value already of that shape stay a bounded nondecreasing
run. -/
theorem cbCalls_pct_map_from {base : Int} {c : ℚ} (hc : 0 ≤ c) {hi : Int}
    (hhi : base + ⌊(100 : ℚ) * c⌋ ≤ hi) (step : String) :
    ∀ (pcts : List ℚ) (prev : ℚ), 0 ≤ prev → prev ≤ 100 →
      List.Chain (· ≤ ·) prev pcts → (∀ p ∈ pcts, p ≤ 100) →
      cbCalls (base + ⌊prev * c⌋) hi
        (pcts.map (fun p => pc step (base + ⌊p * c⌋))) = true := by
  intro pcts
  induction pcts with
  | nil =>
      intro prev h0 h100 _ _
      unfold cbCalls
      refine decide_eq_true ?_
      have hq : prev * c ≤ 100 * c := mul_le_mul_of_nonneg_right h100 hc
      have hf := Int.floor_mono hq
      omega
  | cons p ps ih =>
      intro prev h0 h100 hch hall
      rw [List.map_cons]
      rcases List.chain_cons.mp hch with ⟨hpp, hchp⟩
      refine cbCalls_cons_some.mpr ⟨?_, ?_, ?_⟩
      · have hq : prev * c ≤ p * c := mul_le_mul_of_nonneg_right hpp hc
        have hf := Int.floor_mono hq
        omega
      · have hp100 : p ≤ 100 := hall p (List.mem_cons_self _ _)
        have hq : p * c ≤ 100 * c := mul_le_mul_of_nonneg_right hp100 hc
        have hf := Int.floor_mono hq
        omega
      · exact ih p (le_trans h0 hpp) (hall p (List.mem_cons_self _ _)) hchp
          (fun x hx => hall x (List.mem_cons_of_mem _ hx))

/-- A percent-callback block starting from its base value. -/
theorem cbCalls_pct_map {base : Int} {c : ℚ} (hc : 0 ≤ c) {hi : Int}
    (hhi : base + ⌊(100 : ℚ) * c⌋ ≤ hi) (step : String)
    (pcts : List ℚ) (hm : MonotonePcts pcts) :
    cbCalls base hi (pcts.map (fun p => pc step (base + ⌊p * c⌋))) = true := by
  have hfloor0 : (0 : Int) ≤ ⌊(100 : ℚ) * c⌋ := by
    refine Int.le_floor.mpr ?_
    push_cast
    nlinarith
  cases pcts with
  | nil =>
      unfold cbCalls
      refine decide_eq_true (by omega)
  | cons p ps =>
      have hbd := hm.2 p (List.mem_cons_self _ _)
      have hch : List.Chain (· ≤ ·) p ps := hm.1
      rw [List.map_cons]
      refine cbCalls_cons_some.mpr ⟨?_, ?_, ?_⟩
      · have : (0 : Int) ≤ ⌊p * c⌋ := by
          refine Int.le_floor.mpr ?_
          push_cast
          nlinarith [hbd.1]
        omega
      · have hq : p * c ≤ 100 * c := mul_le_mul_of_nonneg_right hbd.2 hc
        have hf := Int.floor_mono hq
        omega
      · exact cbCalls_pct_map_from hc hhi step ps p hbd.1 hbd.2 hch
          (fun x hx => (hm.2 x (List.mem_cons_of_mem _ hx)).2)

/-- The compression loop's reports stay within [86, 90], nondecreasing. -/
theorem cbCalls_compress (total_frames : Nat) {hi : Int} (hhi : 90 ≤ hi) :
    cbCalls 86 hi (compressCalls total_frames) = true := by
  cases total_frames with
  | zero =>
      show cbCalls 86 hi [] = true
      exact decide_eq_true (by omega)
  | succ m =>
      have hn : (0 : ℚ) < ((m : ℚ) + 1) := by positivity
      have hrw : compressCalls (m + 1)
          = (((List.range (m + 1)).filter
                (fun i => (i + 1) % 5 = 0 ∨ i + 1 = m + 1)).map
              (fun i : ℕ => ((i : ℚ) + 1) / (((m + 1 : Nat) : ℚ)) * 100)).map
            (fun p => pc "frame_optimize" (86 + ⌊p * (4 / 100)⌋)) := by
        unfold compressCalls
        rw [List.map_map]
        rfl
      rw [hrw]
      have hb : (86 : Int) + ⌊(100 : ℚ) * (4 / 100)⌋ ≤ 90 := by
        with_unfolding_all decide
      refine cbCalls_pct_map (by norm_num) (le_trans hb hhi) "frame_optimize"
        (((List.range (m + 1)).filter
            (fun i => (i + 1) % 5 = 0 ∨ i + 1 = m + 1)).map
          (fun i : ℕ => ((i : ℚ) + 1) / (((m + 1 : Nat) : ℚ)) * 100)) ⟨?_, ?_⟩
      · refine List.Pairwise.chain' ?_
        refine List.Pairwise.map _ ?_ ((List.pairwise_lt_range (m + 1)).filter _)
        intro a b hab
        have hcast : ((a : ℚ) + 1) ≤ ((b : ℚ) + 1) := by
          have : (a : ℚ) ≤ (b : ℚ) := by exact_mod_cast le_of_lt hab
          linarith
        have hdiv : ((a : ℚ) + 1) / (((m + 1 : Nat) : ℚ))
            ≤ ((b : ℚ) + 1) / (((m + 1 : Nat) : ℚ)) := by
          have hN : (0 : ℚ) < ((m + 1 : Nat) : ℚ) := by push_cast; positivity
          exact (div_le_div_iff_of_pos_right hN).mpr hcast
        exact mul_le_mul_of_nonneg_right hdiv (by norm_num)
      · intro p hp
        obtain ⟨i, hi_mem, rfl⟩ := List.mem_map.mp hp
        have hi_range : i < m + 1 := List.mem_range.mp (List.mem_of_mem_filter hi_mem)
        constructor
        · positivity
        · have h1 : ((i : ℚ) + 1) / (((m + 1 : Nat) : ℚ)) ≤ 1 := by
            rw [div_le_one (by push_cast; positivity)]
            push_cast
            have : (i : ℚ) + 1 ≤ (m : ℚ) + 1 := by
              have : (i : ℚ) ≤ (m : ℚ) := by exact_mod_cast Nat.lt_succ_iff.mp hi_range
              linarith
            linarith
          calc ((i : ℚ) + 1) / (((m + 1 : Nat) : ℚ)) * 100 ≤ 1 * 100 :=
                mul_le_mul_of_nonneg_right h1 (by norm_num)
            _ = 100 := by norm_num

theorem cbCalls_subtitle (cfg : PipelineConfig) (hwf : cfg.whisper_fails = false) :
    cbCalls 38 50 (subtitleCalls cfg) = true := by
  unfold subtitleCalls
  rw [hwf]
  cases h : cfg.use_ai_transcription
  · show cbCalls 38 50 [pc "fetch_subtitles" 40, pc "fetch_subtitles" 47] = true
    decide
  · show cbCalls 38 50 [pc "ai_transcription" 40, pc "ai_transcription" 45] = true
    decide

theorem cbCalls_optimize (cfg : PipelineConfig) :
    cbCalls 50 58 (optimizeCalls cfg) = true := by
  unfold optimizeCalls
  cases h1 : cfg.primary_subtitle_is_auto
  · show cbCalls 50 58 [pc "subtitle_optimize" 50] = true
    decide
  · cases h2 : cfg.optimize_fails
    · cases h3 : cfg.reduction_gt_30
      · show cbCalls 50 58 [pc "subtitle_optimize" 52, pc "subtitle_optimize" 53] = true
        decide
      · show cbCalls 50 58 [pc "subtitle_optimize" 52, pc "subtitle_optimize" 55] = true
        decide
    · show cbCalls 50 58 [pc "subtitle_optimize" 52, pc "subtitle_optimize" 52] = true
      decide

theorem cbCalls_translate (cfg : PipelineConfig) (haf : cfg.ai_translation_fails = false)
    (tr : List ℚ) (htr : MonotonePcts tr) :
    cbCalls 68 75 (translateStageCalls cfg tr) = true := by
  unfold translateStageCalls
  rw [haf]
  cases h1 : cfg.translate_requested
  · show cbCalls 68 75 [pc "translate" 72] = true
    decide
  · cases h2 : cfg.outline_requested
    · show cbCalls 68 75
        (pc "translate" 68 :: (translationCalls tr ++ [pc "translate" 72])) = true
      refine cbCalls_cons_some.mpr ⟨by omega, by omega, ?_⟩
      refine cbCalls_append (m := 72) ?_ (by decide)
      have hb : (68 : Int) + ⌊(100 : ℚ) * (4 / 100)⌋ ≤ 72 := by
        with_unfolding_all decide
      exact cbCalls_pct_map (by norm_num) hb _ tr htr
    · show cbCalls 68 75
        (pc "translate" 68 :: ((pc "translate" 69 :: ([] : List LogCall))
          ++ [pc "translate" 72])) = true
      decide

/-- C3: within one job in normal operation — no Whisper fallback and no
AI-translation fallback (each of which deliberately re-announces a lower
stage progress), callbacks delivering nondecreasing percentages in
[0, 100] — every event appended later to the history carries a progress at
least that of every earlier event: progress is never reset to a lower
value. -/
theorem job_progress_monotone (cfg : PipelineConfig) (dl tr ex : List ℚ)
    (total_frames : Nat) (hnorm : NormalOperation cfg)
    (hdl : MonotonePcts dl) (htr : MonotonePcts tr) (hex : MonotonePcts ex) :
    (jobHistory cfg dl tr ex total_frames).Pairwise
      (fun e1 e2 => e1.progress ≤ e2.progress) := by
  refine @buildHistory_pairwise 100 _ _ _ ?_
  unfold pipelineCalls
  have h1 : cbCalls 0 20 [pcs "queued" JobStatus.pending 0,
      pcs "prepare" JobStatus.processing 5, pc "metadata" 10, pc "metadata" 12,
      pc "download_video" 20] = true := by decide
  have h2 : cbCalls 20 35 (downloadCalls dl) = true := by
    have hb : (20 : Int) + ⌊(100 : ℚ) * (15 / 100)⌋ ≤ 35 := by
      with_unfolding_all decide
    exact cbCalls_pct_map (by norm_num) hb _ dl hdl
  have h3 : cbCalls 35 38 [pc "download_video" 35, pc "fetch_subtitles" 38]
      = true := by decide
  have h4 := cbCalls_subtitle cfg hnorm.1
  have h5 : cbCalls 50 50 [pc "subtitle_selection" 50] = true := by decide
  have h6 := cbCalls_optimize cfg
  have h7 : cbCalls 58 68 [pc "subtitle_parse" 58, pc "subtitle_parse" 62,
      pc "keyframe_selection" 65] = true := by decide
  have h8 := cbCalls_translate cfg hnorm.2 tr htr
  have h9 : cbCalls 75 75 [pc "frame_capture" 75] = true := by decide
  have h10 : cbCalls 75 85 (extractionCalls ex) = true := by
    have hb : (75 : Int) + ⌊(100 : ℚ) * (10 / 100)⌋ ≤ 85 := by
      with_unfolding_all decide
    exact cbCalls_pct_map (by norm_num) hb _ ex hex
  have h11 : cbCalls 85 86 [pc "frame_capture" 85, pc "frame_optimize" 86]
      = true := by decide
  have h12 : cbCalls 86 90 (compressCalls total_frames) = true :=
    cbCalls_compress _ le_rfl
  have h13 : cbCalls 90 90 [pc "frame_optimize" 90] = true := by decide
  have h14 : cbCalls 90 98 (outlineCalls cfg) = true := by
    unfold outlineCalls
    cases h : cfg.outline_requested
    · show cbCalls 90 98 [pc "ai_outline" 92] = true
      decide
    · show cbCalls 90 98 [pc "ai_outline" 92, pc "ai_outline" 95] = true
      decide
  have h15 : cbCalls 98 100 [pc "finalize" 98,
      pcs "complete" JobStatus.completed 100] = true := by decide
  exact cbCalls_append (cbCalls_append (cbCalls_append (cbCalls_append (cbCalls_append
    (cbCalls_append (cbCalls_append (cbCalls_append (cbCalls_append (cbCalls_append
    (cbCalls_append (cbCalls_append (cbCalls_append (cbCalls_append h1 h2) h3) h4) h5)
    h6) h7) h8) h9) h10) h11) h12) h13) h14) h15

/-- C3 witness: a concrete no-frills run (every switch off, empty callback
sequences, no frames) has a monotone history. -/
theorem job_progress_monotone_witness :
    NormalOperation ⟨false, false, false, false, false, false, false, false⟩
    ∧ MonotonePcts []
    ∧ (jobHistory ⟨false, false, false, false, false, false, false, false⟩
        [] [] [] 0).Pairwise (fun e1 e2 => e1.progress ≤ e2.progress) := by
  have hm : MonotonePcts [] := ⟨List.chain'_nil, by simp⟩
  have hn : NormalOperation ⟨false, false, false, false, false, false, false, false⟩ :=
    ⟨rfl, rfl⟩
  exact ⟨hn, hm, job_progress_monotone _ [] [] [] 0 hn hm hm hm⟩
